import Mathlib

/- Verification of stride/utils/fft.py.

   The module's three functions (magnitude_spectrum, phase_spectrum, bandwidth)
   are modelled over exact real arithmetic: a 1-D numpy array of floats becomes
   a `List ℝ`, a complex array becomes a `List ℂ`, and the discrete Fourier
   transform is the textbook sum that `np.fft.fft` computes.  numpy operations
   that can raise (broadcasting failures, out-of-range item assignment) are
   modelled with `Option`: `none` is a raised `ValueError`/`IndexError`. -/

open scoped Classical

/-- Python runtime values that can be passed for the `db` argument of
`magnitude_spectrum`.  The source tests `db is True`, an identity comparison
that only the boolean `True` object satisfies; integers and strings are
distinct objects even when truthy. -/
inductive PyVal where
  | bool (b : Bool)
  | int (n : ℤ)
  | str (s : String)
deriving DecidableEq

/-- The epsilon offset `1e-31` used by the decibel conversion. -/
noncomputable def eps : ℝ := 1e-31

/-- Model of `np.fft.fft(x)` with the default (backward) normalisation:
`A_k = Σ_n x_n · exp(-2πi·k·n/N)` for `k = 0, …, N-1`. -/
noncomputable def npFftRaw (x : List ℝ) : List ℂ :=
  (List.range x.length).map fun (k : ℕ) =>
    ∑ n ∈ Finset.range x.length,
      (x.getD n 0 : ℂ) *
        Complex.exp ((-2) * (Real.pi : ℂ) * Complex.I * (k : ℂ) * (n : ℂ) / (x.length : ℂ))

/-- Model of `np.fft.fft(x, norm="forward")`: each component of the backward transform
divided by `N`. -/
noncomputable def npFftForward (x : List ℝ) : List ℂ :=
  (npFftRaw x).map (fun z => z / (x.length : ℂ))

/-- Model of `np.fft.fftfreq(n, d)`: the sample-frequency sequence
`[0, 1, …, (n-1)//2, -(n//2), …, -1] / (d·n)`.  Index `k` is in the
non-negative block exactly when `k < (n+1)/2`. -/
noncomputable def npFftfreq (n : ℕ) (d : ℝ) : List ℝ :=
  (List.range n).map fun (k : ℕ) =>
    (if k < (n + 1) / 2 then (k : ℝ) else (k : ℝ) - (n : ℝ)) / (d * n)

/-- The Python slice `l[i:]` for a possibly negative integer index `i`. -/
def pyTail {α : Type} (l : List α) (i : ℤ) : List α :=
  if 0 ≤ i then l.drop i.toNat else l.drop (l.length - (-i).toNat)

/-- numpy length broadcasting for one axis: lengths are compatible when they
are equal or one of them is `1`; otherwise the operation raises. -/
def bcastLen (a b : ℕ) : Option ℕ :=
  if a = b then some a else if a = 1 then some b else if b = 1 then some a else none

/-- Stretch a list to a broadcast length (a length-1 list is repeated). -/
def bcastList (l : List ℝ) (n : ℕ) : List ℝ :=
  if l.length = n then l else List.replicate n (l.headD 0)

/-- Elementwise addition of two 1-D numpy arrays, with broadcasting;
`none` is the `ValueError` raised on incompatible shapes. -/
def npAdd1 (x y : List ℝ) : Option (List ℝ) :=
  match bcastLen x.length y.length with
  | none => none
  | some n => some (List.zipWith (· + ·) (bcastList x n) (bcastList y n))

/-- Model of `np.max` of a 1-D array (the caller guarantees it is non-empty). -/
noncomputable def npMax : List ℝ → ℝ
  | [] => 0
  | h :: t => t.foldl max h

/-- Model of `np.argmax` of a 1-D array: the first index attaining the maximum. -/
noncomputable def npArgmax (l : List ℝ) : ℕ :=
  (List.range l.length).foldl (fun best i => if l.getD best 0 < l.getD i 0 then i else best) 0

/-- Item assignment `a[i] = v` with a scalar `v`; `none` is the
`IndexError` raised when `i` is out of range. -/
def pySetItem (l : List ℝ) (i : ℕ) (v : ℝ) : Option (List ℝ) :=
  if i < l.length then some (l.set i v) else none

/-- Slice assignment `a[1:] = v` for 1-D `a` and `v`: `v` must broadcast to
the slice's length `a.length - 1` (either exactly, or as a single repeated
element); otherwise numpy raises. -/
def pySetSlice1 (l : List ℝ) (v : List ℝ) : Option (List ℝ) :=
  if v.length = l.length - 1 then some (l.take 1 ++ v)
  else if v.length = 1 then some (l.take 1 ++ List.replicate (l.length - 1) (v.headD 0))
  else none

/-- Model of `magnitude_spectrum(signal, dt, db)` from stride/utils/fft.py on a 1-D
signal, step for step:

    num = signal.shape[-1]
    num_freqs = (num + 1) // 2
    freqs = np.fft.fftfreq(num, dt)[:num_freqs]
    fft_components = np.fft.fft(signal, axis=-1, norm="forward")
    zero_freq_fft = np.abs(fft_components[0])
    pos_freq_fft = np.abs(fft_components[1:num_freqs])
    neg_freq_fft = np.abs(fft_components[-num_freqs+1:])
    signal_fft = np.zeros((num_freqs,))
    signal_fft[0] = zero_freq_fft
    signal_fft[1:] = pos_freq_fft + neg_freq_fft[::-1]
    if db is True:
        signal_fft = 20 * np.log10((signal_fft + 1e-31) / (np.max(signal_fft) + 1e-31))
    return freqs, signal_fft
-/
noncomputable def magnitude_spectrum (signal : List ℝ) (dt : ℝ) (db : PyVal) :
    Option (List ℝ × List ℝ) :=
  let num := signal.length
  let num_freqs := (num + 1) / 2
  let freqs := (npFftfreq num dt).take num_freqs
  let fft_components := npFftForward signal
  let zero_freq_fft := Complex.abs (fft_components.getD 0 0)
  let pos_freq_fft := ((fft_components.drop 1).take (num_freqs - 1)).map Complex.abs
  let neg_freq_fft := (pyTail fft_components (1 - (num_freqs : ℤ))).map Complex.abs
  (pySetItem (List.replicate num_freqs 0) 0 zero_freq_fft).bind fun s0 =>
    (npAdd1 pos_freq_fft neg_freq_fft.reverse).bind fun rhs =>
      (pySetSlice1 s0 rhs).bind fun signal_fft =>
        some (freqs,
          if db = PyVal.bool true then
            signal_fft.map fun v => 20 * Real.logb 10 ((v + eps) / (npMax signal_fft + eps))
          else signal_fft)

/-- Model of `phase_spectrum(signal, dt)` from stride/utils/fft.py on a 1-D signal:

    num = signal.shape[-1]
    if not num % 2: num_freqs = num // 2
    else:           num_freqs = (num + 1) // 2
    signal_fft = np.fft.fft(signal, axis=-1).take(range(num_freqs), axis=-1)
    freqs = np.fft.fftfreq(num, dt)[:num_freqs]
    signal_fft = np.angle(signal_fft)
    return freqs, signal_fft

`np.angle` is `atan2(imag, real)`, which is `Complex.arg`. -/
noncomputable def phase_spectrum (signal : List ℝ) (dt : ℝ) : List ℝ × List ℝ :=
  let num := signal.length
  let num_freqs := if num % 2 = 0 then num / 2 else (num + 1) / 2
  let signal_fft := ((npFftRaw signal).take num_freqs).map Complex.arg
  let freqs := (npFftfreq num dt).take num_freqs
  (freqs, signal_fft)

/-- Model of `bandwidth(signal, dt, cutoff)` from stride/utils/fft.py on a 1-D signal.
The spectrum returned by `magnitude_spectrum` is always 1-D (it is written
into `np.zeros((num_freqs,))`), so the `len(signal_fft.shape) > 1` averaging
branch never fires and the live path is embedded.  The two scan loops are the
Python `for f in range(num_freqs)` / `for f in reversed(range(num_freqs))`
with `break` on the first bin strictly above `cutoff`; `f_min` falls back to
the literal `0` and `f_max` to the literal integer `num_freqs`. -/
noncomputable def bandwidth (signal : List ℝ) (dt : ℝ) (cutoff : ℝ) :
    Option (ℝ × ℝ × ℝ) :=
  match magnitude_spectrum signal dt (PyVal.bool true) with
  | none => none
  | some (freqs, signal_fft) =>
    let num_freqs := signal_fft.length
    let f_min : ℝ :=
      match (List.range num_freqs).find? (fun f => decide (cutoff < signal_fft.getD f 0)) with
      | some f => freqs.getD f 0
      | none => 0
    let f_centre : ℝ := freqs.getD (npArgmax signal_fft) 0
    let f_max : ℝ :=
      match (List.range num_freqs).reverse.find?
          (fun f => decide (cutoff < signal_fft.getD f 0)) with
      | some f => freqs.getD f 0
      | none => (num_freqs : ℝ)
    some (f_min, f_centre, f_max)

/-- Item assignment `a[i] = v` where `a` is 1-D and `v` is a 1-D array:
numpy broadcasts `v` into the scalar slot, which succeeds only when `v` has
exactly one element. -/
def pySetItemArr (l : List ℝ) (i : ℕ) (v : List ℝ) : Option (List ℝ) :=
  if i < l.length then
    if v.length = 1 then some (l.set i (v.headD 0)) else none
  else none

/-- Stretch a matrix to a broadcast row count (a single row is repeated). -/
def bcastRows (x : List (List ℝ)) (r : ℕ) : List (List ℝ) :=
  if x.length = r then x else List.replicate r (x.headD [])

/-- Row-by-row Option-valued zip used by 2-D addition. -/
def npAddRows : List (List ℝ) → List (List ℝ) → Option (List (List ℝ))
  | [], _ => some []
  | _, [] => some []
  | x :: xs, y :: ys =>
    (npAdd1 x y).bind fun r => (npAddRows xs ys).bind fun rs => some (r :: rs)

/-- Elementwise addition of two 2-D numpy arrays with broadcasting on both
axes; `none` is the `ValueError` on incompatible shapes. -/
def npAdd2 (x y : List (List ℝ)) : Option (List (List ℝ)) :=
  match bcastLen x.length y.length with
  | none => none
  | some r => npAddRows (bcastRows x r) (bcastRows y r)

/-- Slice assignment `a[1:] = v` where `a` is 1-D but `v` is 2-D: numpy can
never broadcast a 2-dimensional source onto a 1-dimensional target slice, so
the assignment always raises `ValueError`. -/
def pySetSlice1Mat (_l : List ℝ) (_v : List (List ℝ)) : Option (List ℝ) :=
  none

/-- Model of `magnitude_spectrum` on a 2-D signal of shape (B, N), step for step.
`np.fft.fft(signal, axis=-1)` transforms each row, but the subsequent
indexing `fft_components[0]`, `fft_components[1:num_freqs]` and
`fft_components[-num_freqs+1:]` selects ROWS (axis 0), not frequency bins,
and `signal_fft = np.zeros((num_freqs,))` is 1-D. -/
noncomputable def magnitude_spectrum2 (signal : List (List ℝ)) (dt : ℝ) (db : PyVal) :
    Option (List ℝ × List ℝ) :=
  let num := (signal.headD []).length
  let num_freqs := (num + 1) / 2
  let freqs := (npFftfreq num dt).take num_freqs
  let fft_components := signal.map npFftForward
  let zero_freq_fft := (fft_components.headD []).map Complex.abs
  let pos_freq_fft := ((fft_components.drop 1).take (num_freqs - 1)).map
    (fun row => row.map Complex.abs)
  let neg_freq_fft := (pyTail fft_components (1 - (num_freqs : ℤ))).map
    (fun row => row.map Complex.abs)
  (pySetItemArr (List.replicate num_freqs 0) 0 zero_freq_fft).bind fun s0 =>
    (npAdd2 pos_freq_fft neg_freq_fft.reverse).bind fun rhs =>
      (pySetSlice1Mat s0 rhs).bind fun signal_fft =>
        some (freqs,
          if db = PyVal.bool true then
            signal_fft.map fun v => 20 * Real.logb 10 ((v + eps) / (npMax signal_fft + eps))
          else signal_fft)

/-- Model of `phase_spectrum` on a 2-D signal of shape (B, N): here the slicing
really is along the last axis (`.take(range(num_freqs), axis=-1)`), so each
row is processed independently. -/
noncomputable def phase_spectrum2 (signal : List (List ℝ)) (dt : ℝ) :
    List ℝ × List (List ℝ) :=
  let num := (signal.headD []).length
  let num_freqs := if num % 2 = 0 then num / 2 else (num + 1) / 2
  let signal_fft := signal.map fun row => ((npFftRaw row).take num_freqs).map Complex.arg
  let freqs := (npFftfreq num dt).take num_freqs
  (freqs, signal_fft)

@[simp] lemma npFftRaw_length (x : List ℝ) : (npFftRaw x).length = x.length := by
  rw [npFftRaw, List.length_map, List.length_range]

@[simp] lemma npFftForward_length (x : List ℝ) : (npFftForward x).length = x.length := by
  simp [npFftForward]

@[simp] lemma npFftfreq_length (n : ℕ) (d : ℝ) : (npFftfreq n d).length = n := by
  simp [npFftfreq]

lemma magnitude_spectrum_shape {s : List ℝ} {dt : ℝ} {db : PyVal} {fr sp : List ℝ}
    (h : magnitude_spectrum s dt db = some (fr, sp)) :
    1 ≤ s.length ∧ fr.length = (s.length + 1) / 2 ∧ sp.length = (s.length + 1) / 2 := by
  simp only [magnitude_spectrum, Option.bind_eq_some] at h
  obtain ⟨s0, h0, rhs, hrhs, sf, hsf, hfin⟩ := h
  rw [pySetItem] at h0
  split at h0
  case isFalse => exact absurd h0 (by simp)
  case isTrue hlt =>
    have hnum : 1 ≤ s.length := by
      simp only [List.length_replicate] at hlt
      omega
    have hs0 : s0.length = (s.length + 1) / 2 := by
      obtain rfl : _ = s0 := Option.some_injective _ h0
      simp
    have hsf_len : sf.length = s0.length := by
      rw [pySetSlice1] at hsf
      split at hsf
      case isTrue hv =>
        obtain rfl : _ = sf := Option.some_injective _ hsf
        simp only [List.length_append, List.length_take]
        omega
      case isFalse =>
        split at hsf
        case isTrue hv =>
          obtain rfl : _ = sf := Option.some_injective _ hsf
          simp only [List.length_append, List.length_take, List.length_replicate]
          omega
        case isFalse => exact absurd hsf (by simp)
    obtain ⟨rfl, rfl⟩ : _ = fr ∧ _ = sp := by
      have hp := Option.some_injective _ hfin
      exact ⟨congrArg Prod.fst hp, congrArg Prod.snd hp⟩
    refine ⟨hnum, ?_, ?_⟩
    · simp only [List.length_take, npFftfreq_length]
      omega
    · split
      · simpa [List.length_map] using hsf_len.trans hs0
      · exact hsf_len.trans hs0

lemma drop_take_congr {F F' : List ℂ} (hl : F.length = F'.length) (a b : ℕ)
    (h : ∀ i, i < b → F.getD (a + i) 0 = F'.getD (a + i) 0) :
    (F.drop a).take b = (F'.drop a).take b := by
  apply List.ext_getElem
  · simp [hl]
  · intro i h1 h2
    have hb : i < b := by
      simp only [List.length_take, List.length_drop] at h1; omega
    have hF : a + i < F.length := by
      simp only [List.length_take, List.length_drop] at h1; omega
    have hF' : a + i < F'.length := by omega
    rw [List.getElem_take, List.getElem_drop, List.getElem_take, List.getElem_drop]
    rw [← List.getD_eq_getElem F 0 hF, ← List.getD_eq_getElem F' 0 hF']
    exact h i hb

lemma drop_congr {F F' : List ℂ} (hl : F.length = F'.length) (a : ℕ)
    (h : ∀ i, a ≤ i → F.getD i 0 = F'.getD i 0) :
    F.drop a = F'.drop a := by
  apply List.ext_getElem
  · simp [hl]
  · intro i h1 h2
    rw [List.getElem_drop, List.getElem_drop]
    have hF : a + i < F.length := by
      simp only [List.length_drop] at h1; omega
    rw [← List.getD_eq_getElem F 0 hF, ← List.getD_eq_getElem F' 0 (by omega)]
    exact h _ (by omega)

/-- C1: refuted on the code.  The claim asks for batch invariance of
`magnitude_spectrum` on a 2-D input of shape (B, N); but the implementation
slices `fft_components[0]`, `[1:num_freqs]` and `[-num_freqs+1:]` along the
batch axis and allocates a 1-D output, so on the concrete batched input
`[[1,0,0],[0,1,0]]` the assignment `signal_fft[0] = np.abs(fft_components[0])`
tries to put a length-3 row into a scalar slot and raises `ValueError`:
the call returns nothing at all instead of a (2, 2) spectrum. -/
theorem magnitude_spectrum2_batch_raises :
    magnitude_spectrum2 [[1, 0, 0], [0, 1, 0]] 1 (PyVal.bool true) = none := by
  simp [magnitude_spectrum2, pySetItemArr]

/-- C2: if `magnitude_spectrum(signal, dt, db=True)` returns a dB spectrum in
which no bin strictly exceeds `cutoff`, then `bandwidth` returns `f_min` equal
to the literal scalar `0` (not a frequency of the axis) and `f_max` equal to
the literal integer bin count `num_freqs = (N+1)//2` (not a frequency value):
both scan loops run to completion without hitting `break`, leaving the
initialisation values. -/
theorem bandwidth_all_below_cutoff {s : List ℝ} {dt cutoff : ℝ} {fr sp : List ℝ}
    (hmag : magnitude_spectrum s dt (PyVal.bool true) = some (fr, sp))
    (hbelow : ∀ v ∈ sp, ¬ cutoff < v) :
    bandwidth s dt cutoff = some (0, fr.getD (npArgmax sp) 0, (((s.length + 1) / 2 : ℕ) : ℝ)) := by
  have hshape := magnitude_spectrum_shape hmag
  have hnone : ∀ f ∈ List.range sp.length,
      ¬ ((fun f => decide (cutoff < sp.getD f 0)) f = true) := by
    intro f hf
    simp only [List.mem_range] at hf
    simp only [decide_eq_true_eq]
    refine hbelow _ ?_
    rw [List.getD_eq_getElem _ _ hf]
    exact List.getElem_mem _
  have h1 : (List.range sp.length).find? (fun f => decide (cutoff < sp.getD f 0)) = none :=
    List.find?_eq_none.mpr hnone
  have h2 : (List.range sp.length).reverse.find?
      (fun f => decide (cutoff < sp.getD f 0)) = none :=
    List.find?_eq_none.mpr (fun f hf => hnone f (List.mem_reverse.mp hf))
  simp only [bandwidth]
  rw [hmag]
  simp only [h1, h2]
  rw [hshape.2.2]

/-- C2 witness: the constant-zero length-1 signal has dB spectrum `[0]`, so
with `cutoff = 0` no bin strictly exceeds the cutoff, and `bandwidth`
returns `f_min = 0` and `f_max = num_freqs = 1`. -/
theorem bandwidth_all_below_cutoff_witness : bandwidth [0] 1 0 = some (0, 0, 1) := by
  have hmag : magnitude_spectrum [0] 1 (PyVal.bool true) = some ([0], [0]) := by
    simp [magnitude_spectrum, npAdd1, bcastLen, bcastList, pyTail, pySetItem, pySetSlice1,
      npFftForward, npFftRaw, npMax, npFftfreq, eps]
    norm_num [List.range_succ]
  have hb : ∀ v ∈ ([0] : List ℝ), ¬ (0 : ℝ) < v := by
    intro v hv
    simp only [List.mem_singleton] at hv
    simp [hv]
  have h := bandwidth_all_below_cutoff hmag hb
  simpa [npArgmax, List.range_succ] using h

/-- C3: refuted on the code.  The claim quantifies over every signal length
N ≥ 1, but for N = 2 `magnitude_spectrum` never returns a frequency axis at
all: `num_freqs = 1`, so the slice `fft_components[-num_freqs+1:]` is the
whole length-2 array and `pos_freq_fft + neg_freq_fft[::-1]` tries to
broadcast shapes (0,) and (2,), raising `ValueError`. -/
theorem magnitude_spectrum_length_two_raises :
    magnitude_spectrum [1, 0] 1 (PyVal.bool true) = none := by
  simp [magnitude_spectrum, npAdd1, bcastLen, pyTail, pySetItem]

/-- C4: refuted on the code at N = 2.  The claim quantifies over every 1-D
signal of length N ≥ 1, but for the length-2 signal `[2, 0]` the call with
`db=True` raises before the dB conversion is ever reached (broadcast failure
of shapes (0,) and (2,)), so no spectrum with maximum 0 is returned. -/
theorem magnitude_spectrum_db_length_two_raises :
    magnitude_spectrum [2, 0] 1 (PyVal.bool true) = none := by
  simp [magnitude_spectrum, npAdd1, bcastLen, pyTail, pySetItem]

/-- C5: refuted on the code at N = 2.  The claim quantifies over every 1-D
signal of length N ≥ 1, but for the length-2 signal `[1, 1]` the fold never
happens: with `num_freqs = 1` the negative-frequency slice is the whole
array and the addition raises `ValueError`, so no entry equals `|X[0]|`. -/
theorem magnitude_spectrum_fold_length_two_raises :
    magnitude_spectrum [1, 1] 1 (PyVal.bool false) = none := by
  simp [magnitude_spectrum, npAdd1, bcastLen, pyTail, pySetItem]

/-- C6: refuted on the code at N = 2.  The claim quantifies over every 1-D
signal of length N ≥ 1 with negative cutoff, but `bandwidth` calls
`magnitude_spectrum(signal, dt, db=True)`, which raises for the length-2
signal `[1, 0]`, so no triple `(f_min, f_centre, f_max)` is returned. -/
theorem bandwidth_length_two_raises : bandwidth [1, 0] 1 (-10) = none := by
  simp [bandwidth, magnitude_spectrum, npAdd1, bcastLen, pyTail, pySetItem]

/-- C7: every value of the phase array returned by `phase_spectrum` is the
angle `atan2(imag, real)` of a raw complex DFT bin and therefore lies in the
half-open interval (−π, π]. -/
theorem phase_spectrum_in_range (s : List ℝ) (dt : ℝ) :
    ∀ v ∈ (phase_spectrum s dt).2, -Real.pi < v ∧ v ≤ Real.pi := by
  intro v hv
  simp only [phase_spectrum, List.mem_map] at hv
  obtain ⟨z, -, rfl⟩ := hv
  exact ⟨Complex.neg_pi_lt_arg z, Complex.arg_le_pi z⟩

/-- C7 witness: the constant signal `[1]` has phase spectrum `[0]`, and
0 lies in (−π, π]. -/
theorem phase_spectrum_in_range_witness :
    (0 : ℝ) ∈ (phase_spectrum [1] 1).2 ∧ (-Real.pi < 0 ∧ (0 : ℝ) ≤ Real.pi) := by
  have hm : (0 : ℝ) ∈ (phase_spectrum [1] 1).2 := by
    simp [phase_spectrum, npFftRaw]
  exact ⟨hm, phase_spectrum_in_range [1] 1 0 hm⟩

/-- C8: refuted on the code at N = 2.  The claim quantifies over every
constant-zero signal of length N ≥ 1, but for the zero signal `[0, 0]` the
broadcast failure of shapes (0,) and (2,) occurs regardless of the values,
so neither the `db=False` nor the `db=True` call returns the zero array. -/
theorem magnitude_spectrum_zero_length_two_raises :
    magnitude_spectrum [0, 0] 1 (PyVal.bool false) = none ∧
      magnitude_spectrum [0, 0] 1 (PyVal.bool true) = none := by
  constructor
  · simp [magnitude_spectrum, npAdd1, bcastLen, pyTail, pySetItem]
  · simp [magnitude_spectrum, npAdd1, bcastLen, pyTail, pySetItem]

/-- C9: the dB conversion is applied if and only if `db` is the exact boolean
`True` (the Python identity test `db is True`): for any other runtime value,
truthy or not — the integer 1, a non-empty string, the boolean `False` —
the function returns exactly the raw (non-dB) folded magnitude spectrum,
i.e. the same result as for `db=False`. -/
theorem magnitude_spectrum_db_identity_check (s : List ℝ) (dt : ℝ) (d : PyVal)
    (hd : d ≠ PyVal.bool true) :
    magnitude_spectrum s dt d = magnitude_spectrum s dt (PyVal.bool false) := by
  have hf : ¬ (PyVal.bool false = PyVal.bool true) := by decide
  simp only [magnitude_spectrum, if_neg hd, if_neg hf]

/-- C9 witness: the truthy Python integer 1 is not the boolean `True`, and
calling `magnitude_spectrum` with it returns the `db=False` result. -/
theorem magnitude_spectrum_db_identity_check_witness :
    PyVal.int 1 ≠ PyVal.bool true ∧
      magnitude_spectrum [1] 1 (PyVal.int 1) = magnitude_spectrum [1] 1 (PyVal.bool false) :=
  ⟨by decide, magnitude_spectrum_db_identity_check [1] 1 (PyVal.int 1) (by decide)⟩

/-- C10: for even N the Nyquist DFT bin X[N/2] contributes to no entry of the
spectrum returned by `magnitude_spectrum`: the output is built only from bins
0, 1 … num_freqs−1 and the mirrored bins N−1 down to N−num_freqs+1, which for
num_freqs = N/2 excludes index N/2.  Formally, two signals of the same even
length N ≥ 2 whose forward DFTs agree at every index except N/2 receive
identical outputs, whatever the Nyquist amplitudes are. -/
theorem magnitude_spectrum_nyquist_bin_dropped {s s' : List ℝ} (dt : ℝ) (db : PyVal)
    (hl : s.length = s'.length) (heven : s'.length % 2 = 0) (h2 : 2 ≤ s'.length)
    (hagree : ∀ k, k ≠ s'.length / 2 →
      (npFftForward s).getD k 0 = (npFftForward s').getD k 0) :
    magnitude_spectrum s dt db = magnitude_spectrum s' dt db := by
  rcases (by omega : s'.length = 2 ∨ 4 ≤ s'.length) with hc | hc
  · have e1 : magnitude_spectrum s dt db = none := by
      simp [magnitude_spectrum, npAdd1, bcastLen, pyTail, pySetItem, hl, hc]
    have e2 : magnitude_spectrum s' dt db = none := by
      simp [magnitude_spectrum, npAdd1, bcastLen, pyTail, pySetItem, hc]
    rw [e1, e2]
  · have hzero : (npFftForward s).getD 0 0 = (npFftForward s').getD 0 0 :=
      hagree 0 (by omega)
    have hpos : ((npFftForward s).drop 1).take ((s'.length + 1) / 2 - 1) =
        ((npFftForward s').drop 1).take ((s'.length + 1) / 2 - 1) :=
      drop_take_congr (by simp [hl]) 1 _ (fun i hi => hagree (1 + i) (by omega))
    have htoNat : (-(1 - (((s'.length + 1) / 2 : ℕ) : ℤ))).toNat = (s'.length + 1) / 2 - 1 := by
      omega
    have hneg : pyTail (npFftForward s) (1 - (((s'.length + 1) / 2 : ℕ) : ℤ)) =
        pyTail (npFftForward s') (1 - (((s'.length + 1) / 2 : ℕ) : ℤ)) := by
      rw [pyTail, pyTail]
      have hni : ¬ (0 ≤ 1 - (((s'.length + 1) / 2 : ℕ) : ℤ)) := by omega
      rw [if_neg hni, if_neg hni]
      simp only [npFftForward_length, hl, htoNat]
      exact drop_congr (by simp [hl]) _ (fun i hi => hagree i (by omega))
    simp only [magnitude_spectrum, hl, hzero, hpos, hneg]

/-- C10 witness: the signals `[0, 0]` and `[1, -1]` (the pure Nyquist mode)
have forward DFTs agreeing everywhere except at the Nyquist index 1, and
`magnitude_spectrum` treats them identically. -/
theorem magnitude_spectrum_nyquist_bin_dropped_witness :
    magnitude_spectrum [0, 0] 1 (PyVal.bool true) =
      magnitude_spectrum [1, -1] 1 (PyVal.bool true) := by
  refine magnitude_spectrum_nyquist_bin_dropped 1 (PyVal.bool true) rfl rfl (by norm_num) ?_
  intro k hk
  have hk1 : k ≠ 1 := by simpa using hk
  match k, hk1 with
  | 0, _ =>
    simp [npFftForward, npFftRaw, Finset.sum_range_succ]
  | (n + 2), _ =>
    rw [List.getD_eq_default _ _ (by simp), List.getD_eq_default _ _ (by simp)]

lemma headD_nonneg {l : List ℝ} (h : ∀ v ∈ l, 0 ≤ v) : 0 ≤ l.headD 0 := by
  cases l with
  | nil => simp
  | cons x t => exact h x (by simp)

lemma bcastList_nonneg {l : List ℝ} {n : ℕ} (h : ∀ v ∈ l, 0 ≤ v) :
    ∀ v ∈ bcastList l n, 0 ≤ v := by
  intro v hv
  rw [bcastList] at hv
  split at hv
  · exact h v hv
  · rw [List.eq_of_mem_replicate hv]
    exact headD_nonneg h

lemma zipWith_add_nonneg {a b : List ℝ} (ha : ∀ v ∈ a, 0 ≤ v) (hb : ∀ v ∈ b, 0 ≤ v) :
    ∀ v ∈ List.zipWith (· + ·) a b, 0 ≤ v := by
  induction a generalizing b with
  | nil => intro v hv; simp at hv
  | cons x t ih =>
    intro v hv
    cases b with
    | nil => simp at hv
    | cons y u =>
      rcases List.mem_cons.mp hv with rfl | hv'
      · exact add_nonneg (ha x (by simp)) (hb y (by simp))
      · exact ih (fun w hw => ha w (by simp [hw])) (fun w hw => hb w (by simp [hw])) v hv'

/-- Master characterisation of a successful `magnitude_spectrum` call: the
returned pair is the computed frequency axis together with either the raw
folded spectrum `sf` (a list of non-negative reals of length `(N+1)/2`) or
its decibel rescaling, depending on `db`. -/
lemma magnitude_spectrum_eq_cases {s : List ℝ} {dt : ℝ} {db : PyVal} {fr sp : List ℝ}
    (h : magnitude_spectrum s dt db = some (fr, sp)) :
    ∃ sf : List ℝ, (∀ v ∈ sf, 0 ≤ v) ∧ sf.length = (s.length + 1) / 2 ∧
      fr = (npFftfreq s.length dt).take ((s.length + 1) / 2) ∧
      sp = (if db = PyVal.bool true then
        sf.map (fun v => 20 * Real.logb 10 ((v + eps) / (npMax sf + eps))) else sf) := by
  simp only [magnitude_spectrum, Option.bind_eq_some] at h
  obtain ⟨s0, h0, rhs, hrhs, sf, hsf, hfin⟩ := h
  rw [pySetItem] at h0
  split at h0
  case isFalse => exact absurd h0 (by simp)
  case isTrue hlt =>
    obtain rfl : _ = s0 := Option.some_injective _ h0
    have hs0 : ∀ v ∈ (List.replicate ((s.length + 1) / 2) (0:ℝ)).set 0
        (Complex.abs ((npFftForward s).getD 0 0)), 0 ≤ v := by
      intro v hv
      rcases List.mem_or_eq_of_mem_set hv with hv' | rfl
      · rw [List.eq_of_mem_replicate hv']
      · exact Complex.abs.nonneg _
    have habs1 : ∀ v ∈ (((npFftForward s).drop 1).take ((s.length + 1) / 2 - 1)).map
        Complex.abs, 0 ≤ v := by
      intro v hv
      obtain ⟨z, -, rfl⟩ := List.mem_map.mp hv
      exact Complex.abs.nonneg _
    have habs2 : ∀ v ∈ ((pyTail (npFftForward s)
        (1 - (((s.length + 1) / 2 : ℕ) : ℤ))).map Complex.abs).reverse, 0 ≤ v := by
      intro v hv
      obtain ⟨z, -, rfl⟩ := List.mem_map.mp (List.mem_reverse.mp hv)
      exact Complex.abs.nonneg _
    have hrhs_nonneg : ∀ v ∈ rhs, 0 ≤ v := by
      rw [npAdd1] at hrhs
      rcases hb : bcastLen _ _ with - | n
      · rw [hb] at hrhs; exact absurd hrhs (by simp)
      · rw [hb] at hrhs
        obtain rfl : _ = rhs := Option.some_injective _ hrhs
        exact zipWith_add_nonneg (bcastList_nonneg habs1) (bcastList_nonneg habs2)
    have hsf_nonneg : ∀ v ∈ sf, 0 ≤ v := by
      rw [pySetSlice1] at hsf
      split at hsf
      case isTrue =>
        obtain rfl : _ = sf := Option.some_injective _ hsf
        intro v hv
        rcases List.mem_append.mp hv with hv' | hv'
        · exact hs0 v (List.mem_of_mem_take hv')
        · exact hrhs_nonneg v hv'
      case isFalse =>
        split at hsf
        case isTrue =>
          obtain rfl : _ = sf := Option.some_injective _ hsf
          intro v hv
          rcases List.mem_append.mp hv with hv' | hv'
          · exact hs0 v (List.mem_of_mem_take hv')
          · rw [List.eq_of_mem_replicate hv']
            exact headD_nonneg hrhs_nonneg
        case isFalse => exact absurd hsf (by simp)
    have hsf_len : sf.length = (s.length + 1) / 2 := by
      have hnum : 1 ≤ s.length := by
        simp only [List.length_replicate] at hlt
        omega
      rw [pySetSlice1] at hsf
      split at hsf
      case isTrue hv =>
        obtain rfl : _ = sf := Option.some_injective _ hsf
        simp only [List.length_append, List.length_take, List.length_set,
          List.length_replicate] at hv ⊢
        omega
      case isFalse =>
        split at hsf
        case isTrue hv =>
          obtain rfl : _ = sf := Option.some_injective _ hsf
          simp only [List.length_append, List.length_take, List.length_replicate,
            List.length_set] at hv ⊢
          omega
        case isFalse => exact absurd hsf (by simp)
    obtain ⟨rfl, rfl⟩ : _ = fr ∧ _ = sp := by
      have hp := Option.some_injective _ hfin
      exact ⟨congrArg Prod.fst hp, congrArg Prod.snd hp⟩
    exact ⟨sf, hsf_nonneg, hsf_len, rfl, rfl⟩

lemma foldl_max_init_le (t : List ℝ) (a : ℝ) : a ≤ t.foldl max a := by
  induction t generalizing a with
  | nil => simp
  | cons x t ih => exact le_trans (le_max_left a x) (ih (max a x))

lemma foldl_max_le_of_mem {t : List ℝ} {v : ℝ} (h : v ∈ t) : ∀ a, v ≤ t.foldl max a := by
  induction t with
  | nil => cases h
  | cons x t ih =>
    intro a
    rcases List.mem_cons.mp h with rfl | h'
    · exact le_trans (le_max_right a v) (foldl_max_init_le t (max a v))
    · exact ih h' (max a x)

lemma le_npMax_of_mem {l : List ℝ} {v : ℝ} (h : v ∈ l) : v ≤ npMax l := by
  cases l with
  | nil => cases h
  | cons x t =>
    rcases List.mem_cons.mp h with rfl | h'
    · exact foldl_max_init_le t v
    · exact foldl_max_le_of_mem h' x

lemma foldl_max_mem (t : List ℝ) (a : ℝ) : t.foldl max a = a ∨ t.foldl max a ∈ t := by
  induction t generalizing a with
  | nil => simp
  | cons x t ih =>
    rcases ih (max a x) with h | h
    · rcases max_choice a x with hm | hm
      · left; rw [List.foldl_cons, h, hm]
      · right; rw [List.foldl_cons, h, hm]; simp
    · right; simp [h]

lemma npMax_mem {l : List ℝ} (h : l ≠ []) : npMax l ∈ l := by
  cases l with
  | nil => exact absurd rfl h
  | cons x t =>
    rcases foldl_max_mem t x with h' | h'
    · rw [npMax, h']; simp
    · rw [npMax]; simp [h']

/-- Support for C4: whenever `magnitude_spectrum(signal, dt, db=True)` does
return, every entry of the dB spectrum is ≤ 0. -/
theorem magnitude_spectrum_db_nonpos {s : List ℝ} {dt : ℝ} {fr sp : List ℝ}
    (h : magnitude_spectrum s dt (PyVal.bool true) = some (fr, sp)) :
    ∀ v ∈ sp, v ≤ 0 := by
  obtain ⟨sf, hnn, hlen, -, hsp⟩ := magnitude_spectrum_eq_cases h
  rw [if_pos rfl] at hsp
  subst hsp
  intro v hv
  obtain ⟨u, hu, rfl⟩ := List.mem_map.mp hv
  have hu0 : 0 ≤ u := hnn u hu
  have huM : u ≤ npMax sf := le_npMax_of_mem hu
  have hM0 : 0 ≤ npMax sf := le_trans hu0 huM
  have heps : (0 : ℝ) < eps := by norm_num [eps]
  have hratio1 : (u + eps) / (npMax sf + eps) ≤ 1 := by
    rw [div_le_one (by linarith)]
    linarith
  have hratio0 : 0 ≤ (u + eps) / (npMax sf + eps) := by positivity
  have hlog := Real.logb_nonpos (by norm_num : (1:ℝ) < 10) hratio0 hratio1
  linarith

/-- Support for C4: whenever `magnitude_spectrum(signal, dt, db=True)` does
return, the dB spectrum attains the value 0 (at the peak bin, where the
ratio to the maximum is exactly 1). -/
theorem magnitude_spectrum_db_attains_zero {s : List ℝ} {dt : ℝ} {fr sp : List ℝ}
    (h : magnitude_spectrum s dt (PyVal.bool true) = some (fr, sp)) :
    (0 : ℝ) ∈ sp := by
  obtain ⟨sf, hnn, hlen, -, hsp⟩ := magnitude_spectrum_eq_cases h
  rw [if_pos rfl] at hsp
  subst hsp
  have hne : sf ≠ [] := by
    intro hnil
    rw [hnil] at hlen
    have := magnitude_spectrum_shape h
    simp at hlen
    omega
  have hM := npMax_mem hne
  have hM0 : 0 ≤ npMax sf := hnn _ hM
  have heps : (0 : ℝ) < eps := by norm_num [eps]
  refine List.mem_map.mpr ⟨npMax sf, hM, ?_⟩
  rw [div_self (by linarith), Real.logb_one, mul_zero]

lemma getD_take' {α : Type} (l : List α) (d : α) (m n : ℕ) (h : n < m) :
    (l.take m).getD n d = l.getD n d := by
  by_cases hn : n < l.length
  · rw [List.getD_eq_getElem _ _ (by simp [List.length_take]; omega),
      List.getD_eq_getElem _ _ hn, List.getElem_take]
  · rw [List.getD_eq_default _ _ (by simp [List.length_take]; omega),
      List.getD_eq_default _ _ (by omega)]

lemma getD_drop' {α : Type} (l : List α) (d : α) (m n : ℕ) (h : n < l.length - m) :
    (l.drop m).getD n d = l.getD (m + n) d := by
  rw [List.getD_eq_getElem _ _ (by simp [List.length_drop]; omega),
    List.getD_eq_getElem _ _ (by omega), List.getElem_drop]

lemma getD_reverse' {α : Type} (l : List α) (d : α) (n : ℕ) (h : n < l.length) :
    l.reverse.getD n d = l.getD (l.length - 1 - n) d := by
  rw [List.getD_eq_getElem _ _ (by simp [List.length_reverse]; omega),
    List.getD_eq_getElem _ _ (by omega), List.getElem_reverse]

lemma getD_map_abs (l : List ℂ) (n : ℕ) (h : n < l.length) :
    (l.map Complex.abs).getD n 0 = Complex.abs (l.getD n 0) := by
  rw [List.getD_eq_getElem _ _ (by simp [List.length_map]; omega),
    List.getD_eq_getElem _ _ h, List.getElem_map]

lemma getD_zipWith_add (a b : List ℝ) (n : ℕ) (ha : n < a.length) (hb : n < b.length) :
    (List.zipWith (· + ·) a b).getD n 0 = a.getD n 0 + b.getD n 0 := by
  rw [List.getD_eq_getElem _ _ (by simp [List.length_zipWith]; omega),
    List.getD_eq_getElem _ _ ha, List.getD_eq_getElem _ _ hb, List.getElem_zipWith]

/-- Structure of a successful raw (db=False) call: the spectrum starts with
the zero-bin magnitude, and (for N ≥ 3) continues with the elementwise sum of
the positive-frequency magnitudes and the reversed negative-frequency
magnitudes. -/
lemma magnitude_spectrum_raw_struct {s : List ℝ} {dt : ℝ} {fr sp : List ℝ}
    (h : magnitude_spectrum s dt (PyVal.bool false) = some (fr, sp)) :
    ∃ X : List ℝ, sp = Complex.abs ((npFftForward s).getD 0 0) :: X ∧
      (3 ≤ s.length → X = List.zipWith (· + ·)
        ((((npFftForward s).drop 1).take ((s.length + 1) / 2 - 1)).map Complex.abs)
        (((pyTail (npFftForward s) (1 - (((s.length + 1) / 2 : ℕ) : ℤ))).map
          Complex.abs).reverse)) := by
  have hN2 : s.length ≠ 2 := by
    intro hc
    rw [show magnitude_spectrum s dt (PyVal.bool false) = none by
      simp [magnitude_spectrum, npAdd1, bcastLen, pyTail, pySetItem, hc]] at h
    exact absurd h (by simp)
  simp only [magnitude_spectrum, Option.bind_eq_some] at h
  obtain ⟨s0, h0, rhs, hrhs, sf, hsf, hfin⟩ := h
  rw [pySetItem] at h0
  split at h0
  case isFalse => exact absurd h0 (by simp)
  case isTrue hlt =>
    obtain rfl : _ = s0 := Option.some_injective _ h0
    have hnum : 1 ≤ s.length := by
      simp only [List.length_replicate] at hlt
      omega
    have htake : ((List.replicate ((s.length + 1) / 2) (0:ℝ)).set 0
        (Complex.abs ((npFftForward s).getD 0 0))).take 1 =
        [Complex.abs ((npFftForward s).getD 0 0)] := by
      obtain ⟨m, hm⟩ : ∃ m, (s.length + 1) / 2 = m + 1 := ⟨(s.length + 1) / 2 - 1, by omega⟩
      rw [hm, List.replicate_succ]
      simp
    obtain ⟨-, rfl⟩ : _ = fr ∧ _ = sp := by
      have hp := Option.some_injective _ hfin
      exact ⟨congrArg Prod.fst hp, congrArg Prod.snd hp⟩
    rw [if_neg (by decide)]
    rcases (by omega : s.length = 1 ∨ 3 ≤ s.length) with h1 | h3
    · rw [pySetSlice1] at hsf
      split at hsf
      case isTrue =>
        obtain rfl : _ = sf := Option.some_injective _ hsf
        exact ⟨rhs, by rw [htake]; rfl, fun hc => absurd h1 (by omega)⟩
      case isFalse =>
        split at hsf
        case isTrue =>
          obtain rfl : _ = sf := Option.some_injective _ hsf
          exact ⟨_, by rw [htake]; rfl, fun hc => absurd h1 (by omega)⟩
        case isFalse => exact absurd hsf (by simp)
    · have hposlen : ((((npFftForward s).drop 1).take ((s.length + 1) / 2 - 1)).map
          Complex.abs).length = (s.length + 1) / 2 - 1 := by
        simp only [List.length_map, List.length_take, List.length_drop, npFftForward_length]
        omega
      have hneglen : (((pyTail (npFftForward s) (1 - (((s.length + 1) / 2 : ℕ) : ℤ))).map
          Complex.abs).reverse).length = (s.length + 1) / 2 - 1 := by
        rw [List.length_reverse, List.length_map, pyTail, if_neg (by omega), List.length_drop,
          npFftForward_length]
        omega
      have hzip : List.zipWith (· + ·)
          (bcastList ((((npFftForward s).drop 1).take ((s.length + 1) / 2 - 1)).map
            Complex.abs) ((s.length + 1) / 2 - 1))
          (bcastList (((pyTail (npFftForward s) (1 - (((s.length + 1) / 2 : ℕ) : ℤ))).map
            Complex.abs).reverse) ((s.length + 1) / 2 - 1)) = rhs := by
        rw [npAdd1] at hrhs
        rw [show bcastLen ((((npFftForward s).drop 1).take ((s.length + 1) / 2 - 1)).map
            Complex.abs).length (((pyTail (npFftForward s)
            (1 - (((s.length + 1) / 2 : ℕ) : ℤ))).map Complex.abs).reverse).length
            = some ((s.length + 1) / 2 - 1) by
          rw [hposlen, hneglen, bcastLen, if_pos rfl]] at hrhs
        exact Option.some_injective _ hrhs
      rw [bcastList, if_pos hposlen, bcastList, if_pos hneglen] at hzip
      have hrhs_len : rhs.length = (s.length + 1) / 2 - 1 := by
        rw [← hzip, List.length_zipWith, hposlen, hneglen]
        omega
      rw [pySetSlice1] at hsf
      split at hsf
      case isTrue =>
        obtain rfl : _ = sf := Option.some_injective _ hsf
        exact ⟨rhs, by rw [htake]; rfl, fun _ => hzip.symm⟩
      case isFalse hcond =>
        refine absurd ?_ hcond
        simp only [List.length_set, List.length_replicate]
        omega

/-- Support for C5: whenever `magnitude_spectrum(signal, dt, db=False)`
returns, entry 0 of the spectrum is `|X[0]|` and entry k (for
1 ≤ k ≤ num_freqs−1) is `|X[k]| + |X[N−k]|`, magnitudes taken separately
before summing. -/
theorem magnitude_spectrum_fold_formula {s : List ℝ} {dt : ℝ} {fr sp : List ℝ}
    (h : magnitude_spectrum s dt (PyVal.bool false) = some (fr, sp)) :
    sp.getD 0 0 = Complex.abs ((npFftForward s).getD 0 0) ∧
    ∀ k, 1 ≤ k → k < (s.length + 1) / 2 →
      sp.getD k 0 = Complex.abs ((npFftForward s).getD k 0) +
        Complex.abs ((npFftForward s).getD (s.length - k) 0) := by
  obtain ⟨X, hsp, hX⟩ := magnitude_spectrum_raw_struct h
  constructor
  · rw [hsp]
    rfl
  · intro k hk1 hk2
    have h3 : 3 ≤ s.length := by omega
    rw [hsp, hX h3]
    obtain ⟨j, rfl⟩ : ∃ j, k = j + 1 := ⟨k - 1, by omega⟩
    rw [List.getD_cons_succ]
    have hposlen : ((((npFftForward s).drop 1).take ((s.length + 1) / 2 - 1)).map
        Complex.abs).length = (s.length + 1) / 2 - 1 := by
      simp only [List.length_map, List.length_take, List.length_drop, npFftForward_length]
      omega
    have hneglen : (((pyTail (npFftForward s) (1 - (((s.length + 1) / 2 : ℕ) : ℤ))).map
        Complex.abs).reverse).length = (s.length + 1) / 2 - 1 := by
      rw [List.length_reverse, List.length_map, pyTail, if_neg (by omega), List.length_drop,
        npFftForward_length]
      omega
    rw [getD_zipWith_add _ _ j (by omega) (by omega)]
    have hpos_entry : ((((npFftForward s).drop 1).take ((s.length + 1) / 2 - 1)).map
        Complex.abs).getD j 0 = Complex.abs ((npFftForward s).getD (j + 1) 0) := by
      rw [getD_map_abs _ _ (by
          simp only [List.length_take, List.length_drop, npFftForward_length]
          omega),
        getD_take' _ _ _ _ (by omega),
        getD_drop' _ _ _ _ (by simp only [npFftForward_length]; omega)]
      rw [Nat.add_comm]
    have hneg_entry : (((pyTail (npFftForward s) (1 - (((s.length + 1) / 2 : ℕ) : ℤ))).map
        Complex.abs).reverse).getD j 0 =
        Complex.abs ((npFftForward s).getD (s.length - (j + 1)) 0) := by
      rw [getD_reverse' _ _ _ (by
          rw [List.length_map, pyTail, if_neg (by omega), List.length_drop,
            npFftForward_length]
          omega)]
      rw [List.length_map, pyTail, if_neg (by omega), List.length_drop, npFftForward_length]
      have htn : (-(1 - (((s.length + 1) / 2 : ℕ) : ℤ))).toNat = (s.length + 1) / 2 - 1 := by
        omega
      rw [htn]
      rw [getD_map_abs _ _ (by
          simp only [List.length_drop, npFftForward_length]
          omega),
        getD_drop' _ _ _ _ (by simp only [npFftForward_length]; omega)]
      congr 2
      omega
    rw [hpos_entry, hneg_entry]

lemma npFftfreq_getD {n : ℕ} (d : ℝ) {m : ℕ} (hm : m < (n + 1) / 2) :
    (npFftfreq n d).getD m 0 = (m : ℝ) / (d * n) := by
  have hmn : m < n := by omega
  rw [npFftfreq, List.getD_eq_getElem _ _ (by simpa using hmn), List.getElem_map,
    List.getElem_range, if_pos hm]

/-- Support for C3: whenever `magnitude_spectrum` returns and `dt > 0`, the
frequency axis has length `(N+1)//2`, starts at the literal 0, and is
strictly ascending. -/
theorem magnitude_spectrum_freq_axis {s : List ℝ} {dt : ℝ} {db : PyVal} {fr sp : List ℝ}
    (h : magnitude_spectrum s dt db = some (fr, sp)) (hdt : 0 < dt) :
    fr.length = (s.length + 1) / 2 ∧ fr.getD 0 0 = 0 ∧
      ∀ i j, i < j → j < fr.length → fr.getD i 0 < fr.getD j 0 := by
  obtain ⟨hnum, hfrlen, -⟩ := magnitude_spectrum_shape h
  obtain ⟨sf, -, -, hfr, -⟩ := magnitude_spectrum_eq_cases h
  have hget : ∀ m, m < (s.length + 1) / 2 → fr.getD m 0 = (m : ℝ) / (dt * s.length) := by
    intro m hm
    rw [hfr, getD_take' _ _ _ _ hm, npFftfreq_getD dt hm]
  refine ⟨hfrlen, ?_, ?_⟩
  · rw [hget 0 (by omega)]
    simp
  · intro i j hij hj
    rw [hfrlen] at hj
    rw [hget i (by omega), hget j hj]
    have hden : 0 < dt * (s.length : ℝ) := by
      have : (0:ℝ) < (s.length : ℝ) := by
        exact_mod_cast hnum
      positivity
    rw [div_lt_div_iff_of_pos_right hden]
    exact_mod_cast hij

/-- Support for C3: the frequency axis and phase array of `phase_spectrum`
both have length `N//2` for even N and `(N+1)//2` for odd N. -/
theorem phase_spectrum_axis_length (s : List ℝ) (dt : ℝ) :
    (phase_spectrum s dt).1.length =
      (if s.length % 2 = 0 then s.length / 2 else (s.length + 1) / 2) ∧
    (phase_spectrum s dt).2.length =
      (if s.length % 2 = 0 then s.length / 2 else (s.length + 1) / 2) := by
  constructor
  · simp only [phase_spectrum, List.length_take, npFftfreq_length]
    split
    · omega
    · omega
  · simp only [phase_spectrum, List.length_map, List.length_take, npFftRaw_length]
    split
    · omega
    · omega

/-- Support for C1: `phase_spectrum` really is batch invariant — row i of the
2-D result equals the 1-D result on row i of the input (for a rectangular
batch). -/
theorem phase_spectrum2_batch_rows (signal : List (List ℝ)) (dt : ℝ)
    (hrect : ∀ row ∈ signal, row.length = (signal.headD []).length) :
    ∀ i, i < signal.length →
      (phase_spectrum2 signal dt).2.getD i [] = (phase_spectrum (signal.getD i []) dt).2 := by
  intro i hi
  have hrow : (signal.getD i []) ∈ signal := by
    rw [List.getD_eq_getElem _ _ hi]
    exact List.getElem_mem _
  have hlen := hrect _ hrow
  simp only [phase_spectrum2, phase_spectrum]
  rw [List.getD_eq_getElem _ _ (by simpa using hi), List.getElem_map,
    ← List.getD_eq_getElem _ _ hi, hlen]

lemma magnitude_spectrum_len2_none {s : List ℝ} (dt : ℝ) (db : PyVal)
    (hc : s.length = 2) : magnitude_spectrum s dt db = none := by
  simp [magnitude_spectrum, npAdd1, bcastLen, pyTail, pySetItem, hc]

/-- Support for C3–C8: `magnitude_spectrum` on a 1-D signal succeeds exactly
when the length is neither 0 nor 2 — length 2 is the single interior length
at which the fold raises. -/
theorem magnitude_spectrum_isSome_iff (s : List ℝ) (dt : ℝ) (db : PyVal) :
    (magnitude_spectrum s dt db).isSome ↔ (1 ≤ s.length ∧ s.length ≠ 2) := by
  constructor
  · intro h
    obtain ⟨⟨fr, sp⟩, hsome⟩ := Option.isSome_iff_exists.mp h
    refine ⟨(magnitude_spectrum_shape hsome).1, ?_⟩
    intro hc
    rw [magnitude_spectrum_len2_none dt db hc] at hsome
    exact absurd hsome (by simp)
  · rintro ⟨h1, h2⟩
    rcases (by omega : s.length = 1 ∨ 3 ≤ s.length) with hc | hc
    · match s, (by omega : s.length = 1) with
      | [a], _ =>
        simp [magnitude_spectrum, npAdd1, bcastLen, bcastList, pyTail, pySetItem, pySetSlice1]
    · have hposlen : ((((npFftForward s).drop 1).take ((s.length + 1) / 2 - 1)).map
          Complex.abs).length = (s.length + 1) / 2 - 1 := by
        simp only [List.length_map, List.length_take, List.length_drop, npFftForward_length]
        omega
      have hneglen : (((pyTail (npFftForward s) (1 - (((s.length + 1) / 2 : ℕ) : ℤ))).map
          Complex.abs).reverse).length = (s.length + 1) / 2 - 1 := by
        rw [List.length_reverse, List.length_map, pyTail, if_neg (by omega), List.length_drop,
          npFftForward_length]
        omega
      simp only [magnitude_spectrum]
      rw [pySetItem, if_pos (by simp only [List.length_replicate]; omega)]
      rw [npAdd1, show bcastLen ((((npFftForward s).drop 1).take ((s.length + 1) / 2 - 1)).map
          Complex.abs).length (((pyTail (npFftForward s)
          (1 - (((s.length + 1) / 2 : ℕ) : ℤ))).map Complex.abs).reverse).length
          = some ((s.length + 1) / 2 - 1) by
        rw [hposlen, hneglen, bcastLen, if_pos rfl]]
      simp only [Option.some_bind]
      rw [pySetSlice1, if_pos (by
        rw [List.length_zipWith, List.length_set, List.length_replicate, bcastList,
          if_pos hposlen, bcastList, if_pos hneglen, hposlen, hneglen]
        omega)]
      simp

lemma foldl_argmax_spec (l : List ℝ) (idxs : List ℕ) (b : ℕ) :
    (idxs.foldl (fun best i => if l.getD best 0 < l.getD i 0 then i else best) b = b ∨
      idxs.foldl (fun best i => if l.getD best 0 < l.getD i 0 then i else best) b ∈ idxs) ∧
    l.getD b 0 ≤
      l.getD (idxs.foldl (fun best i => if l.getD best 0 < l.getD i 0 then i else best) b) 0 ∧
    ∀ i ∈ idxs, l.getD i 0 ≤
      l.getD (idxs.foldl (fun best i => if l.getD best 0 < l.getD i 0 then i else best) b) 0 := by
  induction idxs generalizing b with
  | nil => exact ⟨Or.inl rfl, le_refl _, by simp⟩
  | cons x t ih =>
    simp only [List.foldl_cons]
    obtain ⟨hmem, hble, hall⟩ := ih (if l.getD b 0 < l.getD x 0 then x else b)
    have hb' : l.getD b 0 ≤ l.getD (if l.getD b 0 < l.getD x 0 then x else b) 0 := by
      split
      · exact le_of_lt (by assumption)
      · exact le_refl _
    have hx' : l.getD x 0 ≤ l.getD (if l.getD b 0 < l.getD x 0 then x else b) 0 := by
      split
      · exact le_refl _
      · exact le_of_not_lt (by assumption)
    refine ⟨?_, le_trans hb' hble, ?_⟩
    · rcases hmem with h | h
      · rw [h]
        split
        · exact Or.inr (List.mem_cons_self _ _)
        · exact Or.inl rfl
      · exact Or.inr (List.mem_cons_of_mem x h)
    · intro i hi
      rcases List.mem_cons.mp hi with rfl | hi'
      · exact le_trans hx' hble
      · exact hall i hi'

lemma npArgmax_spec {l : List ℝ} (hl : l ≠ []) :
    npArgmax l < l.length ∧ ∀ i, i < l.length → l.getD i 0 ≤ l.getD (npArgmax l) 0 := by
  obtain ⟨hmem, -, hall⟩ := foldl_argmax_spec l (List.range l.length) 0
  have hlen : 0 < l.length := List.length_pos.mpr hl
  constructor
  · rw [npArgmax]
    rcases hmem with h | h
    · rw [h]; exact hlen
    · exact List.mem_range.mp h
  · intro i hi
    exact hall i (List.mem_range.mpr hi)

lemma range_find?_spec {p : ℕ → Bool} : ∀ {n i : ℕ},
    (List.range n).find? p = some i →
    p i = true ∧ i < n ∧ ∀ j, j < i → p j = false := by
  intro n
  induction n with
  | zero => intro i h; simp at h
  | succ m ih =>
    intro i h
    rw [List.range_succ, List.find?_append] at h
    rcases hm : (List.range m).find? p with - | i'
    · rw [hm] at h
      simp only [Option.none_or] at h
      have hall := List.find?_eq_none.mp hm
      have hpi : p m = true ∧ m = i := by
        cases hpm : p m with
        | false =>
          rw [List.find?_cons_of_neg _ (by simp [hpm])] at h
          simp at h
        | true =>
          rw [List.find?_cons_of_pos _ hpm] at h
          exact ⟨rfl, by simpa using h⟩
      obtain ⟨hpm, rfl⟩ := hpi
      exact ⟨hpm, by omega, fun j hj =>
        Bool.not_eq_true _ ▸ (by simpa using hall j (List.mem_range.mpr hj))⟩
    · rw [hm] at h
      obtain rfl : i' = i := by simpa using h
      obtain ⟨h1, h2, h3⟩ := ih hm
      exact ⟨h1, by omega, h3⟩

lemma reverse_range_find?_spec {p : ℕ → Bool} : ∀ {n i : ℕ},
    (List.range n).reverse.find? p = some i →
    p i = true ∧ i < n ∧ ∀ j, i < j → j < n → p j = false := by
  intro n
  induction n with
  | zero => intro i h; simp at h
  | succ m ih =>
    intro i h
    rw [List.range_succ, List.reverse_append] at h
    simp only [List.reverse_singleton, List.singleton_append] at h
    cases hpm : p m with
    | false =>
      rw [List.find?_cons_of_neg _ (by simp [hpm])] at h
      obtain ⟨h1, h2, h3⟩ := ih h
      refine ⟨h1, by omega, fun j hj1 hj2 => ?_⟩
      rcases (by omega : j < m ∨ j = m) with hj | rfl
      · exact h3 j hj1 hj
      · exact hpm
    | true =>
      rw [List.find?_cons_of_pos _ hpm] at h
      obtain rfl : m = i := by simpa using h
      exact ⟨hpm, by omega, fun j hj1 hj2 => by omega⟩

/-- Support for C6: whenever the dB spectrum exists, `dt > 0` and the cutoff
is negative, `bandwidth` returns a triple with f_min ≤ f_centre ≤ f_max and
f_centre the frequency at the first global maximum of the dB spectrum. -/
theorem bandwidth_ordering {s : List ℝ} {dt cutoff : ℝ} {fr sp : List ℝ}
    (hmag : magnitude_spectrum s dt (PyVal.bool true) = some (fr, sp))
    (hdt : 0 < dt) (hcut : cutoff < 0) :
    ∃ i1 i2, bandwidth s dt cutoff =
        some (fr.getD i1 0, fr.getD (npArgmax sp) 0, fr.getD i2 0) ∧
      fr.getD i1 0 ≤ fr.getD (npArgmax sp) 0 ∧
      fr.getD (npArgmax sp) 0 ≤ fr.getD i2 0 := by
  obtain ⟨hnum, hfrlen, hsplen⟩ := magnitude_spectrum_shape hmag
  have h0 : (0:ℝ) ∈ sp := magnitude_spectrum_db_attains_zero hmag
  have hspne : sp ≠ [] := List.ne_nil_of_mem h0
  obtain ⟨iz, hiz_lt, hiz⟩ := List.mem_iff_getElem.mp h0
  have hiz' : sp.getD iz 0 = 0 := by rw [List.getD_eq_getElem _ _ hiz_lt, hiz]
  have hpz : decide (cutoff < sp.getD iz 0) = true := by
    simp only [decide_eq_true_eq, hiz']
    exact hcut
  obtain ⟨him_lt, him_max⟩ := npArgmax_spec hspne
  have hpim : decide (cutoff < sp.getD (npArgmax sp) 0) = true := by
    simp only [decide_eq_true_eq]
    calc cutoff < 0 := hcut
    _ = sp.getD iz 0 := hiz'.symm
    _ ≤ sp.getD (npArgmax sp) 0 := him_max iz hiz_lt
  obtain ⟨i1, hfind1⟩ := Option.isSome_iff_exists.mp (by
    rw [List.find?_isSome]
    exact ⟨iz, List.mem_range.mpr hiz_lt, hpz⟩ :
    ((List.range sp.length).find? (fun f => decide (cutoff < sp.getD f 0))).isSome)
  obtain ⟨i2, hfind2⟩ := Option.isSome_iff_exists.mp (by
    rw [List.find?_isSome]
    exact ⟨iz, List.mem_reverse.mpr (List.mem_range.mpr hiz_lt), hpz⟩ :
    ((List.range sp.length).reverse.find? (fun f => decide (cutoff < sp.getD f 0))).isSome)
  obtain ⟨hp1, hi1_lt, hmin1⟩ := range_find?_spec hfind1
  obtain ⟨hp2, hi2_lt, hmax2⟩ := reverse_range_find?_spec hfind2
  have h12 : i1 ≤ npArgmax sp := by
    by_contra hcon
    have := hmin1 (npArgmax sp) (by omega)
    rw [hpim] at this
    exact absurd this (by simp)
  have h23 : npArgmax sp ≤ i2 := by
    by_contra hcon
    have := hmax2 (npArgmax sp) (by omega) him_lt
    rw [hpim] at this
    exact absurd this (by simp)
  have hmono : ∀ i j, i ≤ j → j < fr.length → fr.getD i 0 ≤ fr.getD j 0 := by
    intro i j hij hj
    rcases Nat.lt_or_ge i j with hlt | hge
    · exact le_of_lt ((magnitude_spectrum_freq_axis hmag hdt).2.2 i j hlt hj)
    · obtain rfl : i = j := by omega
      exact le_refl _
  refine ⟨i1, i2, ?_, ?_, ?_⟩
  · simp only [bandwidth]
    rw [hmag]
    simp only [hfind1, hfind2]
  · exact hmono i1 (npArgmax sp) h12 (by omega)
  · exact hmono (npArgmax sp) i2 h23 (by omega)

/-- The `db=True` call is the `db=False` call post-composed with the decibel
rescaling of the spectrum (the two calls run the identical folding pipeline
and differ only in the final conversion step). -/
lemma magnitude_spectrum_db_true_eq (s : List ℝ) (dt : ℝ) :
    magnitude_spectrum s dt (PyVal.bool true) =
      (magnitude_spectrum s dt (PyVal.bool false)).map
        (fun p => (p.1, p.2.map (fun v => 20 * Real.logb 10 ((v + eps) / (npMax p.2 + eps))))) := by
  simp only [magnitude_spectrum]
  cases h1 : pySetItem (List.replicate ((s.length + 1) / 2) 0) 0
      (Complex.abs ((npFftForward s).getD 0 0)) with
  | none => simp
  | some s0 =>
    simp only [Option.some_bind]
    cases h2 : npAdd1 ((((npFftForward s).drop 1).take ((s.length + 1) / 2 - 1)).map
        Complex.abs) (((pyTail (npFftForward s) (1 - (((s.length + 1) / 2 : ℕ) : ℤ))).map
        Complex.abs).reverse) with
    | none => simp
    | some rhs =>
      simp only [Option.some_bind]
      cases h3 : pySetSlice1 s0 rhs with
      | none => simp
      | some sf => simp

lemma getD_replicate_zero (n i : ℕ) : (List.replicate n (0:ℝ)).getD i 0 = 0 := by
  by_cases hi : i < n
  · rw [List.getD_eq_getElem _ _ (by simpa using hi), List.getElem_replicate]
  · rw [List.getD_eq_default _ _ (by simpa using hi)]

lemma npFftForward_replicate_zero (n : ℕ) :
    ∀ k, (npFftForward (List.replicate n (0:ℝ))).getD k 0 = 0 := by
  intro k
  by_cases hk : k < n
  · rw [List.getD_eq_getElem _ _ (by simpa using hk)]
    simp only [npFftForward, npFftRaw, List.getElem_map, List.getElem_range]
    rw [Finset.sum_eq_zero]
    · simp
    · intro m hm
      rw [getD_replicate_zero]
      simp
  · rw [List.getD_eq_default _ _ (by simpa using hk)]

lemma npMax_replicate_zero {n : ℕ} (hn : 1 ≤ n) : npMax (List.replicate n (0:ℝ)) = 0 := by
  have hne : List.replicate n (0:ℝ) ≠ [] := by
    simp only [ne_eq, List.replicate_eq_nil_iff]
    omega
  exact List.eq_of_mem_replicate (npMax_mem hne)

/-- Support for C8: on a constant-zero signal of any length other than 0 and
2, both the raw and the dB magnitude spectrum are the all-zero array of
length `(N+1)//2` — no NaN or infinity appears because the epsilon offset
makes the peak ratio exactly 1. -/
theorem magnitude_spectrum_zero_signal {n : ℕ} (dt : ℝ) (hn : n = 1 ∨ 3 ≤ n) :
    ∃ fr, magnitude_spectrum (List.replicate n 0) dt (PyVal.bool false) =
        some (fr, List.replicate ((n + 1) / 2) 0) ∧
      magnitude_spectrum (List.replicate n 0) dt (PyVal.bool true) =
        some (fr, List.replicate ((n + 1) / 2) 0) := by
  have hsome : (magnitude_spectrum (List.replicate n 0) dt (PyVal.bool false)).isSome := by
    rw [magnitude_spectrum_isSome_iff]
    constructor
    · simp only [List.length_replicate]
      omega
    · simp only [List.length_replicate]
      omega
  obtain ⟨⟨fr, sp⟩, hmag⟩ := Option.isSome_iff_exists.mp hsome
  obtain ⟨hhead, hfold⟩ := magnitude_spectrum_fold_formula hmag
  obtain ⟨-, -, hsplen⟩ := magnitude_spectrum_shape hmag
  simp only [List.length_replicate] at hsplen
  have hsp : sp = List.replicate ((n + 1) / 2) 0 := by
    rw [List.eq_replicate_iff]
    refine ⟨by simpa using hsplen, ?_⟩
    intro b hb
    obtain ⟨i, hi_lt, rfl⟩ := List.mem_iff_getElem.mp hb
    rw [← List.getD_eq_getElem _ 0 hi_lt]
    rcases (by omega : i = 0 ∨ 1 ≤ i) with rfl | hi1
    · rw [hhead, npFftForward_replicate_zero]
      simp
    · rw [hfold i hi1 (by simp only [List.length_replicate]; omega),
        npFftForward_replicate_zero, npFftForward_replicate_zero]
      simp
  refine ⟨fr, by rw [hmag, hsp], ?_⟩
  rw [magnitude_spectrum_db_true_eq, hmag, hsp]
  simp only [Option.map_some']
  have hnf : 1 ≤ (n + 1) / 2 := by omega
  rw [npMax_replicate_zero hnf, List.map_replicate]
  have hval : 20 * Real.logb 10 ((0 + eps) / (0 + eps)) = 0 := by
    rw [zero_add, div_self (by norm_num [eps] : eps ≠ 0), Real.logb_one, mul_zero]
  rw [hval]

/-- Support for C1: the 2-D path of `magnitude_spectrum` never returns at
all — for every batched input (any B, any N) a numpy error is raised, so
the `len(signal_fft.shape) > 1` averaging branch of `bandwidth` is dead
code. -/
theorem magnitude_spectrum2_never_returns (signal : List (List ℝ)) (dt : ℝ) (db : PyVal) :
    magnitude_spectrum2 signal dt db = none := by
  rcases signal with - | ⟨row, rows⟩
  · simp [magnitude_spectrum2, pySetItemArr]
  · rcases (by omega : row.length = 0 ∨ row.length = 1 ∨ 2 ≤ row.length) with h0 | h1 | h2
    · simp [magnitude_spectrum2, pySetItemArr, h0]
    · rcases rows with - | ⟨r2, rs⟩
      · simp [magnitude_spectrum2, pySetItemArr, pySetSlice1Mat, npAdd2, npAddRows,
          bcastLen, bcastRows, pyTail, h1]
      · simp [magnitude_spectrum2, pySetItemArr, pySetSlice1Mat, npAdd2, npAddRows,
          bcastLen, bcastRows, pyTail, h1]
    · simp only [magnitude_spectrum2, pySetItemArr]
      simp only [List.headD_cons, List.map_cons]
      rw [if_pos (by simp only [List.length_replicate]; omega),
        if_neg (by simp only [List.length_map, npFftForward_length]; omega)]
      simp
